import Mathlib

/-!
Verification of the feed-diffing / deduplication core of
`repology-outdated-notify.py`.

The development shallowly embeds the program's data model and operations:

* `Update` and `FeedEntry` mirror the `Update` dataclass and the feedparser
  entry view (`id`, `category`, `title`, `link`).
* `dequeAppend` models `collections.deque(maxlen=...)`: appending to a full
  deque discards the oldest (leftmost) element.  `RepologyPoller.seen_ids`
  is such a deque with `maxlen=500`, modelled as a `List String` whose head
  is the oldest element.
* `isPySpace`, `takeNonSpace`, `dropLiteral` and `title_re_match` embed the
  compiled regular expression `^(\S+) (\S+) is outdated by (\S+)$` under
  Python `re.match` semantics: the pattern is anchored at the start, each
  `\S+` is a maximal run of non-whitespace characters, the separators are
  literal, and the final `$` matches at the end of the string or just
  before a single trailing newline.
* `processEntries` / `check_for_updates` embed the body of
  `RepologyPoller.check_for_updates`, one iteration per feed entry, with
  the deque threaded through as explicit state.  Besides the final deque
  contents and the yielded updates, the result also records the trace of
  ids passed to `self.seen_ids.append` during the cycle, in order; this is
  an observation of the mutation history, not extra behaviour.
* `exponential_backoff` and `loopStep` embed the retry logic of `main`:
  a cycle either succeeds (all entries consumed, counter reset, fixed
  interval sleep) or fails after some prefix of the entries has been
  consumed (counter incremented, backoff sleep, no rollback of the deque).
-/

set_option autoImplicit false
set_option maxRecDepth 8192

universe u

/-- The `Update` dataclass: one detected outdated-package event. -/
structure Update where
  repository : String
  package : String
  old_version : String
  new_version : String
  details_url : String
deriving DecidableEq

/-- The read-only view of one feed entry used by `check_for_updates`:
`entry.id`, `entry.category`, `entry.title`, `entry.link`. -/
structure FeedEntry where
  id : String
  category : String
  title : String
  link : String
deriving DecidableEq

/-- `collections.deque(maxlen=maxlen).append x`: the new element goes to the
right; if the deque is full the leftmost (oldest) element is discarded.
The list head is the oldest element. -/
def dequeAppend {α : Type u} (maxlen : Nat) (q : List α) (x : α) : List α :=
  (q ++ [x]).drop (q.length + 1 - maxlen)

/-- Python `\s` on `str` patterns: the whitespace characters recognised by
`Py_UNICODE_ISSPACE` (ASCII whitespace, the information separators, NEL,
NBSP and the Unicode space separators). -/
def isPySpace (c : Char) : Bool :=
  let n := c.toNat
  (9 ≤ n && n ≤ 13) || n == 32 || (28 ≤ n && n ≤ 31) || n == 0x85 ||
    n == 0xA0 || n == 0x1680 || (0x2000 ≤ n && n ≤ 0x200A) ||
    n == 0x2028 || n == 0x2029 || n == 0x202F || n == 0x205F || n == 0x3000

/-- Split off the maximal leading run of non-whitespace characters,
the semantics of a greedy `\S+` followed by whitespace or the end. -/
def takeNonSpace : List Char → List Char × List Char
  | [] => ([], [])
  | c :: cs =>
    if isPySpace c then ([], c :: cs)
    else
      let p := takeNonSpace cs
      (c :: p.1, p.2)

/-- Match a literal fragment of the pattern at the front of the input and
return the remainder, or fail. -/
def dropLiteral : List Char → List Char → Option (List Char)
  | [], cs => some cs
  | _ :: _, [] => none
  | l :: ls, c :: cs => if c = l then dropLiteral ls cs else none

/-- The literal fragment of the pattern between the second and the third
capture group: a space, `is outdated by`, a space. -/
def outdatedLiteral : List Char := " is outdated by ".data

/-- The tail of the pattern, `(\S+)$`: capture a maximal nonempty run of
non-whitespace characters, then `$` accepts the end of the input or a
single trailing newline (the semantics of `$` without `re.MULTILINE`).
`p` and `o` are the two groups already captured. -/
def matchEnd (p o r5 : List Char) :
    Option (List Char × List Char × List Char) :=
  let n := (takeNonSpace r5).1
  let r6 := (takeNonSpace r5).2
  if n = [] then none
  else if r6 = [] then some (p, o, n)
  else if r6 = ['\n'] then some (p, o, n)
  else none

/-- The pattern from the second group on: `(\S+) is outdated by (\S+)$`,
with the first captured group `p` already in hand. -/
def matchSecond (p r2 : List Char) :
    Option (List Char × List Char × List Char) :=
  let o := (takeNonSpace r2).1
  let r3 := (takeNonSpace r2).2
  if o = [] then none
  else
    match dropLiteral outdatedLiteral r3 with
    | none => none
    | some r5 => matchEnd p o r5

/-- The compiled pattern `^(\S+) (\S+) is outdated by (\S+)$` applied with
`re.match` to a character list.  Each `\S+` must capture a maximal nonempty
run of non-whitespace characters against the following literal separator. -/
def title_re_match_chars (cs : List Char) :
    Option (List Char × List Char × List Char) :=
  let p := (takeNonSpace cs).1
  let r1 := (takeNonSpace cs).2
  if p = [] then none
  else
    match dropLiteral [' '] r1 with
    | none => none
    | some r2 => matchSecond p r2

/-- `self.title_re.match(entry.title)` with the three captured groups. -/
def title_re_match (title : String) : Option (String × String × String) :=
  match title_re_match_chars title.data with
  | none => none
  | some (p, o, n) => some (⟨p⟩, ⟨o⟩, ⟨n⟩)

/-- The result of one polling cycle: the final contents of the
`seen_ids` deque, the trace of ids appended to it during the cycle
(in order), and the yielded `Update`s (in order). -/
structure CycleResult where
  seen_ids : List String
  recorded : List String
  updates : List Update
deriving DecidableEq

/-- The update yielded for one entry that survived the dedup, first-run and
category checks: parse the title; on failure log and skip (no update), on
success build the `Update` from the captured groups, the entry link and the
poller's repository. -/
def entryUpdate (repository : String) (e : FeedEntry) : List Update :=
  match title_re_match e.title with
  | none => []
  | some (pkg, oldv, newv) =>
    [{ repository := repository, package := pkg, old_version := oldv,
       new_version := newv, details_url := e.link }]

/-- The entry loop of `RepologyPoller.check_for_updates`: for each entry in
feed order, skip it if its id is in `seen_ids`, otherwise append the id to
`seen_ids` (a `maxlen=500` deque) and then — unless this is the first run,
the category is not `"outdated"`, or the title fails to parse — yield an
update. -/
def processEntries (repository : String) (first_run : Bool) :
    List FeedEntry → List String → CycleResult
  | [], seen => ⟨seen, [], []⟩
  | e :: es, seen =>
    if e.id ∈ seen then processEntries repository first_run es seen
    else
      let r := processEntries repository first_run es (dequeAppend 500 seen e.id)
      let upd : List Update :=
        if first_run then []
        else if e.category = "outdated" then entryUpdate repository e
        else []
      ⟨r.seen_ids, e.id :: r.recorded, upd ++ r.updates⟩

/-- `RepologyPoller.check_for_updates` on an already-fetched entry list:
`first_run` is decided once, at the start of the cycle, as
`len(self.seen_ids) == 0`. -/
def check_for_updates (repository : String) (entries : List FeedEntry)
    (seen : List String) : CycleResult :=
  processEntries repository (seen.length == 0) entries seen

/-- `exponential_backoff`: `min(base * (2**attempt), 3600)`. -/
def exponential_backoff (base : Nat) (attempt : Nat) : Nat :=
  min (base * 2 ^ attempt) 3600

/-- The state owned by the run loop in `main`: the poller's deque and the
consecutive-failure counter `retry_attempt`. -/
structure LoopState where
  seen_ids : List String
  retry_attempt : Nat
deriving DecidableEq

/-- How one polling cycle ends: it either runs to completion, or an
exception escapes after some number `k` of feed entries have already been
consumed from the generator (`k = 0` covers a fetch failure). -/
inductive CycleOutcome where
  | success : CycleOutcome
  | failAfter : Nat → CycleOutcome
deriving DecidableEq

/-- The observable outcome of one iteration of the `while True` loop in
`main`: the next loop state, the number of seconds slept before the next
cycle, and the updates that were dispatched during the cycle. -/
structure StepResult where
  state : LoopState
  sleep_seconds : Nat
  updates : List Update
deriving DecidableEq

/-- One iteration of the run loop in `main`.  On success the failure
counter is reset to `0` and the loop sleeps the fixed interval.  On a
failure the entries consumed so far keep their effect on the deque (the
`except` handler does not touch poller state), the counter is incremented,
and the loop sleeps `exponential_backoff(30, retry_attempt)` instead of the
interval.  The function is total: every outcome yields a next state, the
loop never terminates the process. -/
def loopStep (repository : String) (interval : Nat) (entries : List FeedEntry)
    (outcome : CycleOutcome) (st : LoopState) : StepResult :=
  match outcome with
  | .success =>
    let r := check_for_updates repository entries st.seen_ids
    ⟨⟨r.seen_ids, 0⟩, interval, r.updates⟩
  | .failAfter k =>
    let r := check_for_updates repository (entries.take k) st.seen_ids
    let attempt := st.retry_attempt + 1
    ⟨⟨r.seen_ids, attempt⟩, exponential_backoff 30 attempt, r.updates⟩

/-! ### Lemmas about the title parser -/

/-- Unfolding equation for `takeNonSpace` on a nonempty input. -/
theorem takeNonSpace_cons (c : Char) (cs : List Char) :
    takeNonSpace (c :: cs) =
      if isPySpace c then ([], c :: cs)
      else (c :: (takeNonSpace cs).1, (takeNonSpace cs).2) := rfl

/-- `takeNonSpace` splits its input: the first component is a run of
non-whitespace characters, the second starts with whitespace (if nonempty),
and together they rebuild the input. -/
theorem takeNonSpace_sound (cs : List Char) :
    cs = (takeNonSpace cs).1 ++ (takeNonSpace cs).2 ∧
      (∀ c ∈ (takeNonSpace cs).1, isPySpace c = false) ∧
      (∀ c cs', (takeNonSpace cs).2 = c :: cs' → isPySpace c = true) := by
  induction cs with
  | nil => exact ⟨rfl, by simp [takeNonSpace], by simp [takeNonSpace]⟩
  | cons c cs ih =>
    by_cases h : isPySpace c
    · refine ⟨by simp [takeNonSpace_cons, h], by simp [takeNonSpace_cons, h], ?_⟩
      intro d cs' hd
      simp only [takeNonSpace_cons, h, if_true] at hd
      cases hd
      exact h
    · obtain ⟨ih1, ih2, ih3⟩ := ih
      refine ⟨?_, ?_, ?_⟩
      · simpa [takeNonSpace_cons, h] using ih1
      · intro d hd
        simp [takeNonSpace_cons, h, List.mem_cons] at hd
        rcases hd with h1 | hd
        · subst h1; simpa using h
        · exact ih2 d hd
      · intro d cs' hd
        simp [takeNonSpace_cons, h] at hd
        exact ih3 d cs' hd

/-- `takeNonSpace` on a run of non-whitespace characters followed by a
remainder that is empty or starts with whitespace returns exactly that
split. -/
theorem takeNonSpace_complete (t : List Char) :
    ∀ r : List Char, (∀ c ∈ t, isPySpace c = false) →
      (∀ c cs', r = c :: cs' → isPySpace c = true) →
      takeNonSpace (t ++ r) = (t, r) := by
  induction t with
  | nil =>
    intro r _ hr
    cases r with
    | nil => rfl
    | cons c cs => simp [takeNonSpace, hr c cs rfl]
  | cons c t ih =>
    intro r ht hr
    have hc : isPySpace c = false := ht c (by simp)
    simp [takeNonSpace_cons, hc, ih r (fun d hd => ht d (by simp [hd])) hr]

/-- `dropLiteral lit cs` succeeds with remainder `r` exactly when `cs` is
the literal followed by `r`. -/
theorem dropLiteral_eq_some (ls : List Char) :
    ∀ cs r : List Char, (dropLiteral ls cs = some r ↔ cs = ls ++ r) := by
  induction ls with
  | nil => intro cs r; simp [dropLiteral, eq_comm]
  | cons l ls ih =>
    intro cs r
    cases cs with
    | nil => simp [dropLiteral]
    | cons c cs =>
      by_cases h : c = l
      · subst h; simp [dropLiteral, ih]
      · simp [dropLiteral, h]

/-- Characterization of `matchEnd`: it succeeds exactly on a nonempty
whitespace-free run followed by nothing or by a single newline. -/
theorem matchEnd_eq_some (p o r5 p' o' n : List Char) :
    matchEnd p o r5 = some (p', o', n) ↔
      p' = p ∧ o' = o ∧ n ≠ [] ∧ (∀ c ∈ n, isPySpace c = false) ∧
        (r5 = n ∨ r5 = n ++ ['\n']) := by
  obtain ⟨hs, hns, hsp⟩ := takeNonSpace_sound r5
  constructor
  · intro h
    simp only [matchEnd] at h
    by_cases h0 : (takeNonSpace r5).1 = []
    · simp [h0] at h
    · rw [if_neg h0] at h
      by_cases h6 : (takeNonSpace r5).2 = []
      · rw [if_pos h6] at h
        have hinj := Option.some.inj h
        have hp' : p = p' := congrArg Prod.fst hinj
        have ho' : o = o' := congrArg (fun x => x.2.1) hinj
        have hn : (takeNonSpace r5).1 = n := congrArg (fun x => x.2.2) hinj
        refine ⟨hp'.symm, ho'.symm, ?_, ?_, Or.inl ?_⟩
        · rw [← hn]; exact h0
        · rw [← hn]; exact hns
        · rw [h6, List.append_nil] at hs
          exact hs.trans hn
      · rw [if_neg h6] at h
        by_cases h7 : (takeNonSpace r5).2 = ['\n']
        · rw [if_pos h7] at h
          have hinj := Option.some.inj h
          have hp' : p = p' := congrArg Prod.fst hinj
          have ho' : o = o' := congrArg (fun x => x.2.1) hinj
          have hn : (takeNonSpace r5).1 = n := congrArg (fun x => x.2.2) hinj
          refine ⟨hp'.symm, ho'.symm, ?_, ?_, Or.inr ?_⟩
          · rw [← hn]; exact h0
          · rw [← hn]; exact hns
          · rw [h7] at hs
            rw [hs, hn]
        · rw [if_neg h7] at h
          exact absurd h (by simp)
  · rintro ⟨rfl, rfl, hn, hnns, hr | hr⟩
    · have ht : takeNonSpace (n ++ []) = (n, []) :=
        takeNonSpace_complete n [] hnns (by intro c cs' h; cases h)
      rw [List.append_nil] at ht
      rw [hr] at *
      simp [matchEnd, ht, hn]
    · have ht : takeNonSpace (n ++ ['\n']) = (n, ['\n']) := by
        refine takeNonSpace_complete n ['\n'] hnns ?_
        intro c cs' h
        cases h
        decide
      rw [hr] at *
      simp [matchEnd, ht, hn]

/-- The middle literal is a space followed by `is outdated by `. -/
theorem outdatedLiteral_eq : outdatedLiteral = ' ' :: "is outdated by ".data := rfl

/-- Anything starting with the middle literal starts with whitespace. -/
theorem outdatedLiteral_append_head (X : List Char) :
    ∀ c cs', outdatedLiteral ++ X = c :: cs' → isPySpace c = true := by
  intro c cs' h
  rw [outdatedLiteral_eq, List.cons_append] at h
  cases h
  decide

/-- Characterization of `matchSecond`: it succeeds exactly on
`<o> is outdated by <n>` (with an optional trailing newline), `o` and `n`
nonempty whitespace-free runs. -/
theorem matchSecond_eq_some (p r2 p' o n : List Char) :
    matchSecond p r2 = some (p', o, n) ↔
      p' = p ∧ o ≠ [] ∧ (∀ c ∈ o, isPySpace c = false) ∧
        n ≠ [] ∧ (∀ c ∈ n, isPySpace c = false) ∧
        (r2 = o ++ outdatedLiteral ++ n ∨
          r2 = o ++ outdatedLiteral ++ n ++ ['\n']) := by
  obtain ⟨hs, hns, hsp⟩ := takeNonSpace_sound r2
  constructor
  · intro h
    simp only [matchSecond] at h
    by_cases h0 : (takeNonSpace r2).1 = []
    · simp [h0] at h
    · rw [if_neg h0] at h
      rcases hdl : dropLiteral outdatedLiteral (takeNonSpace r2).2 with _ | r5 <;>
        rw [hdl] at h
      · exact absurd h (by simp)
      · obtain ⟨hp', ho, hn, hnns, hr5⟩ := (matchEnd_eq_some _ _ _ _ _ _).mp h
        have h3 : (takeNonSpace r2).2 = outdatedLiteral ++ r5 :=
          (dropLiteral_eq_some _ _ _).mp hdl
        refine ⟨hp', ?_, ?_, hn, hnns, ?_⟩
        · rw [ho]; exact h0
        · rw [ho]; exact hns
        · rcases hr5 with rfl | rfl
          · left
            rw [hs, h3, ho, List.append_assoc]
          · right
            rw [hs, h3, ho]
            simp [List.append_assoc]
  · rintro ⟨rfl, ho, hons, hn, hnns, hr | hr⟩
    · have ht : takeNonSpace (o ++ (outdatedLiteral ++ n)) = (o, outdatedLiteral ++ n) :=
        takeNonSpace_complete o (outdatedLiteral ++ n) hons (outdatedLiteral_append_head n)
      have hr' : r2 = o ++ (outdatedLiteral ++ n) := by
        rw [hr, List.append_assoc]
      rw [hr']
      simp only [matchSecond, ht, if_neg ho]
      rw [(dropLiteral_eq_some outdatedLiteral _ n).mpr rfl]
      exact (matchEnd_eq_some _ _ _ _ _ _).mpr ⟨rfl, rfl, hn, hnns, Or.inl rfl⟩
    · have ht : takeNonSpace (o ++ (outdatedLiteral ++ (n ++ ['\n'])))
          = (o, outdatedLiteral ++ (n ++ ['\n'])) :=
        takeNonSpace_complete o (outdatedLiteral ++ (n ++ ['\n'])) hons
          (outdatedLiteral_append_head (n ++ ['\n']))
      have hr' : r2 = o ++ (outdatedLiteral ++ (n ++ ['\n'])) := by
        rw [hr]
        simp [List.append_assoc]
      rw [hr']
      simp only [matchSecond, ht, if_neg ho]
      rw [(dropLiteral_eq_some outdatedLiteral _ (n ++ ['\n'])).mpr rfl]
      exact (matchEnd_eq_some _ _ _ _ _ _).mpr
        ⟨rfl, rfl, hn, hnns, Or.inr rfl⟩

/-- Characterization of the whole pattern: `re.match` on
`^(\S+) (\S+) is outdated by (\S+)$` succeeds with groups `(p, o, n)`
exactly when the input is `<p> <o> is outdated by <n>`, each group a
nonempty whitespace-free run, followed by nothing or one newline. -/
theorem title_re_match_chars_eq_some (cs p o n : List Char) :
    title_re_match_chars cs = some (p, o, n) ↔
      p ≠ [] ∧ o ≠ [] ∧ n ≠ [] ∧
        (∀ c ∈ p, isPySpace c = false) ∧ (∀ c ∈ o, isPySpace c = false) ∧
        (∀ c ∈ n, isPySpace c = false) ∧
        (cs = p ++ [' '] ++ o ++ outdatedLiteral ++ n ∨
          cs = p ++ [' '] ++ o ++ outdatedLiteral ++ n ++ ['\n']) := by
  obtain ⟨hs, hns, hsp⟩ := takeNonSpace_sound cs
  constructor
  · intro h
    simp only [title_re_match_chars] at h
    by_cases h0 : (takeNonSpace cs).1 = []
    · simp [h0] at h
    · rw [if_neg h0] at h
      rcases hdl : dropLiteral [' '] (takeNonSpace cs).2 with _ | r2 <;>
        rw [hdl] at h
      · exact absurd h (by simp)
      · obtain ⟨hp, ho, hons, hn, hnns, hr2⟩ := (matchSecond_eq_some _ _ _ _ _).mp h
        have h1 : (takeNonSpace cs).2 = [' '] ++ r2 :=
          (dropLiteral_eq_some _ _ _).mp hdl
        refine ⟨?_, ho, hn, ?_, hons, hnns, ?_⟩
        · rw [hp]; exact h0
        · rw [hp]; exact hns
        · rcases hr2 with rfl | rfl
          · left
            rw [hs, h1, hp]
            simp [List.append_assoc]
          · right
            rw [hs, h1, hp]
            simp [List.append_assoc]
  · rintro ⟨hp, ho, hn, hpns, hons, hnns, hr | hr⟩
    · have hr' : cs = p ++ (' ' :: (o ++ (outdatedLiteral ++ n))) := by
        rw [hr]
        simp [List.append_assoc]
      have ht : takeNonSpace (p ++ (' ' :: (o ++ (outdatedLiteral ++ n))))
          = (p, ' ' :: (o ++ (outdatedLiteral ++ n))) := by
        refine takeNonSpace_complete p _ hpns ?_
        intro c cs' hcs
        cases hcs
        decide
      rw [hr']
      simp only [title_re_match_chars, ht, if_neg hp]
      have hd : dropLiteral [' '] (' ' :: (o ++ (outdatedLiteral ++ n)))
          = some (o ++ (outdatedLiteral ++ n)) :=
        (dropLiteral_eq_some [' '] _ _).mpr rfl
      rw [hd]
      exact (matchSecond_eq_some p _ p o n).mpr
        ⟨rfl, ho, hons, hn, hnns, Or.inl (by simp [List.append_assoc])⟩
    · have hr' : cs = p ++ (' ' :: (o ++ (outdatedLiteral ++ (n ++ ['\n'])))) := by
        rw [hr]
        simp [List.append_assoc]
      have ht : takeNonSpace (p ++ (' ' :: (o ++ (outdatedLiteral ++ (n ++ ['\n'])))))
          = (p, ' ' :: (o ++ (outdatedLiteral ++ (n ++ ['\n'])))) := by
        refine takeNonSpace_complete p _ hpns ?_
        intro c cs' hcs
        cases hcs
        decide
      rw [hr']
      simp only [title_re_match_chars, ht, if_neg hp]
      have hd : dropLiteral [' '] (' ' :: (o ++ (outdatedLiteral ++ (n ++ ['\n']))))
          = some (o ++ (outdatedLiteral ++ (n ++ ['\n']))) :=
        (dropLiteral_eq_some [' '] _ _).mpr rfl
      rw [hd]
      exact (matchSecond_eq_some p _ p o n).mpr
        ⟨rfl, ho, hons, hn, hnns, Or.inr (by simp [List.append_assoc])⟩

/-- `title_re_match` on a string is `title_re_match_chars` on its
characters. -/
theorem title_re_match_eq_some (t pkg oldv newv : String) :
    title_re_match t = some (pkg, oldv, newv) ↔
      title_re_match_chars t.data = some (pkg.data, oldv.data, newv.data) := by
  constructor
  · intro h
    unfold title_re_match at h
    rcases hc : title_re_match_chars t.data with _ | ⟨p, o, n⟩ <;> rw [hc] at h
    · exact absurd h (by simp)
    · have hinj := Option.some.inj h
      have h1 : (⟨p⟩ : String) = pkg := congrArg Prod.fst hinj
      have h2 : (⟨o⟩ : String) = oldv := congrArg (fun x => x.2.1) hinj
      have h3 : (⟨n⟩ : String) = newv := congrArg (fun x => x.2.2) hinj
      rw [← h1, ← h2, ← h3]
  · intro h
    unfold title_re_match
    rw [h]

/-! ### Lemmas about the bounded deque -/

/-- Appending never grows the deque beyond its bound. -/
theorem dequeAppend_length_le {α : Type u} (maxlen : Nat) (q : List α) (x : α)
    (h : q.length ≤ maxlen) : (dequeAppend maxlen q x).length ≤ maxlen := by
  simp only [dequeAppend, List.length_drop, List.length_append, List.length_cons,
    List.length_nil]
  omega

/-- Every element of the deque after an append was in the deque before, or
is the appended element. -/
theorem mem_dequeAppend {α : Type u} (maxlen : Nat) (q : List α) (x y : α)
    (h : y ∈ dequeAppend maxlen q x) : y ∈ q ∨ y = x := by
  have h' : y ∈ q ++ [x] := (List.drop_sublist _ _).mem h
  simpa using h'

/-- An append to a deque that is not yet full is a plain append. -/
theorem dequeAppend_of_lt {α : Type u} (maxlen : Nat) (q : List α) (x : α)
    (h : q.length < maxlen) : dequeAppend maxlen q x = q ++ [x] := by
  simp only [dequeAppend]
  have : q.length + 1 - maxlen = 0 := by omega
  rw [this, List.drop_zero]

/-- Appending a fresh element preserves `Nodup`. -/
theorem dequeAppend_nodup {α : Type u} (maxlen : Nat) (q : List α) (x : α)
    (hq : q.Nodup) (hx : x ∉ q) : (dequeAppend maxlen q x).Nodup := by
  have : (q ++ [x]).Nodup := by
    rw [List.nodup_append]
    exact ⟨hq, List.nodup_singleton x, by simpa using hx⟩
  exact this.sublist (List.drop_sublist _ _)

/-- Dropping before an append commutes with dropping after, for an
in-range drop index. -/
theorem drop_append_drop {α : Type u} (u v : List α) (d m : Nat)
    (hd : d ≤ u.length) :
    (u.drop d ++ v).drop m = (u ++ v).drop (d + m) := by
  conv_rhs => rw [← List.take_append_drop d u, List.append_assoc,
    List.drop_append_eq_append_drop]
  have h1 : (u.take d).length = d := by
    rw [List.length_take]
    omega
  rw [List.drop_eq_nil_of_le (by omega : (u.take d).length ≤ d + m)]
  rw [h1]
  have h2 : d + m - d = m := by omega
  rw [h2, List.nil_append]

/-- Folding `dequeAppend` keeps only the last `maxlen` elements of the
initial deque followed by the appended elements. -/
theorem foldl_dequeAppend {α : Type u} (maxlen : Nat) (ids : List α) :
    ∀ q : List α, q.length ≤ maxlen →
      List.foldl (dequeAppend maxlen) q ids
        = (q ++ ids).drop (q.length + ids.length - maxlen) := by
  induction ids with
  | nil =>
    intro q hq
    simp only [List.foldl_nil, List.append_nil, List.length_nil, Nat.add_zero]
    have h0 : q.length - maxlen = 0 := by omega
    rw [h0, List.drop_zero]
  | cons x ids ih =>
    intro q hq
    have hlen : (dequeAppend maxlen q x).length ≤ maxlen := by
      simp only [dequeAppend, List.length_drop, List.length_append,
        List.length_cons, List.length_nil]
      omega
    rw [List.foldl_cons, ih _ hlen]
    simp only [dequeAppend, List.length_drop, List.length_append,
      List.length_cons, List.length_nil]
    rw [drop_append_drop (q ++ [x]) ids (q.length + 1 - maxlen) _
      (by simp only [List.length_append, List.length_cons, List.length_nil]; omega)]
    rw [show q ++ x :: ids = (q ++ [x]) ++ ids by simp]
    congr 1
    omega

/-! ### Lemmas about one polling cycle -/

/-- Unfolding: the empty feed leaves the cycle state unchanged. -/
theorem processEntries_nil (repo : String) (fr : Bool) (seen : List String) :
    processEntries repo fr [] seen = ⟨seen, [], []⟩ := rfl

/-- Unfolding: an entry whose id is already in the deque is skipped. -/
theorem processEntries_cons_mem (repo : String) (fr : Bool) (e : FeedEntry)
    (es : List FeedEntry) (seen : List String) (h : e.id ∈ seen) :
    processEntries repo fr (e :: es) seen = processEntries repo fr es seen := by
  simp [processEntries, h]

/-- Unfolding: an entry whose id is new is recorded, and yields an update
unless filtered out. -/
theorem processEntries_cons_new (repo : String) (fr : Bool) (e : FeedEntry)
    (es : List FeedEntry) (seen : List String) (h : e.id ∉ seen) :
    processEntries repo fr (e :: es) seen =
      ⟨(processEntries repo fr es (dequeAppend 500 seen e.id)).seen_ids,
        e.id :: (processEntries repo fr es (dequeAppend 500 seen e.id)).recorded,
        (if fr then []
          else if e.category = "outdated" then entryUpdate repo e else []) ++
          (processEntries repo fr es (dequeAppend 500 seen e.id)).updates⟩ := by
  simp [processEntries, h]

/-- A first-run cycle yields no updates, whatever the feed contains. -/
theorem processEntries_first_run (repo : String) (entries : List FeedEntry) :
    ∀ seen : List String, (processEntries repo true entries seen).updates = [] := by
  induction entries with
  | nil => intro seen; rfl
  | cons e es ih =>
    intro seen
    by_cases h : e.id ∈ seen
    · rw [processEntries_cons_mem repo true e es seen h]
      exact ih seen
    · rw [processEntries_cons_new repo true e es seen h]
      simpa using ih (dequeAppend 500 seen e.id)

/-- Every entry of the feed has its id in the initial deque or in the trace
of ids recorded during the cycle. -/
theorem mem_recorded_of_mem (repo : String) (fr : Bool) (entries : List FeedEntry) :
    ∀ (seen : List String) (e : FeedEntry), e ∈ entries →
      e.id ∈ seen ∨ e.id ∈ (processEntries repo fr entries seen).recorded := by
  induction entries with
  | nil => intro seen e he; cases he
  | cons e' es ih =>
    intro seen e he
    by_cases h : e'.id ∈ seen
    · rw [processEntries_cons_mem repo fr e' es seen h]
      rcases List.mem_cons.mp he with rfl | he'
      · exact Or.inl h
      · exact ih seen e he'
    · rw [processEntries_cons_new repo fr e' es seen h]
      rcases List.mem_cons.mp he with rfl | he'
      · exact Or.inr (by simp)
      · rcases ih (dequeAppend 500 seen e'.id) e he' with hmem | hrec
        · rcases mem_dequeAppend 500 seen e'.id e.id hmem with h1 | h1
          · exact Or.inl h1
          · exact Or.inr (by simp [h1])
        · exact Or.inr (by simp [hrec])

/-- If every feed entry id is already in the deque, the cycle is a no-op:
nothing is recorded and nothing is emitted. -/
theorem processEntries_all_seen (repo : String) (fr : Bool) (entries : List FeedEntry) :
    ∀ seen : List String, (∀ e ∈ entries, e.id ∈ seen) →
      processEntries repo fr entries seen = ⟨seen, [], []⟩ := by
  induction entries with
  | nil => intro seen _; rfl
  | cons e es ih =>
    intro seen h
    rw [processEntries_cons_mem repo fr e es seen (h e (by simp))]
    exact ih seen (fun e' he' => h e' (by simp [he']))

/-- The deque and the recorded trace depend only on the entry ids: the
categories, titles, links, the repository and the first-run flag do not
influence what is recorded (recording is unconditional on filtering). -/
theorem recorded_ids_only (repo repo' : String) (fr fr' : Bool) :
    ∀ (entries entries' : List FeedEntry) (seen : List String),
      entries.map FeedEntry.id = entries'.map FeedEntry.id →
      (processEntries repo fr entries seen).seen_ids
          = (processEntries repo' fr' entries' seen).seen_ids ∧
        (processEntries repo fr entries seen).recorded
          = (processEntries repo' fr' entries' seen).recorded := by
  intro entries
  induction entries with
  | nil =>
    intro entries' seen h
    have : entries' = [] := by
      cases entries' with
      | nil => rfl
      | cons e es => simp at h
    subst this
    exact ⟨rfl, rfl⟩
  | cons e es ih =>
    intro entries' seen h
    cases entries' with
    | nil => simp at h
    | cons e' es' =>
      simp only [List.map_cons, List.cons.injEq] at h
      obtain ⟨hid, hmap⟩ := h
      by_cases hm : e.id ∈ seen
      · rw [processEntries_cons_mem repo fr e es seen hm,
          processEntries_cons_mem repo' fr' e' es' seen (hid ▸ hm)]
        exact ih es' seen hmap
      · rw [processEntries_cons_new repo fr e es seen hm,
          processEntries_cons_new repo' fr' e' es' seen (hid ▸ hm)]
        dsimp only
        rw [hid]
        obtain ⟨h1, h2⟩ := ih es' (dequeAppend 500 seen e'.id) hmap
        exact ⟨h1, by rw [h2]⟩

/-- When the feed fits in the free room of the deque, no eviction happens:
the final deque is the initial one followed by the recorded trace, the
trace has no duplicates, and nothing already seen is recorded. -/
theorem processEntries_no_evict (repo : String) (fr : Bool) :
    ∀ (entries : List FeedEntry) (seen : List String),
      seen.length + entries.length ≤ 500 →
      (processEntries repo fr entries seen).seen_ids
          = seen ++ (processEntries repo fr entries seen).recorded ∧
        (processEntries repo fr entries seen).recorded.Nodup ∧
        ∀ x ∈ (processEntries repo fr entries seen).recorded, x ∉ seen := by
  intro entries
  induction entries with
  | nil => intro seen _; simp [processEntries_nil]
  | cons e es ih =>
    intro seen hlen
    by_cases hm : e.id ∈ seen
    · rw [processEntries_cons_mem repo fr e es seen hm]
      exact ih seen (by simp at hlen ⊢; omega)
    · rw [processEntries_cons_new repo fr e es seen hm]
      dsimp only
      have hfree : seen.length < 500 := by simp at hlen; omega
      have hda : dequeAppend 500 seen e.id = seen ++ [e.id] :=
        dequeAppend_of_lt 500 seen e.id hfree
      have hlen' : (seen ++ [e.id]).length + es.length ≤ 500 := by
        simp at hlen ⊢; omega
      obtain ⟨ih1, ih2, ih3⟩ := ih (seen ++ [e.id]) (by rw [← hda] at hlen'; exact (hda ▸ hlen'))
      rw [hda] at *
      refine ⟨?_, ?_, ?_⟩
      · rw [ih1, List.append_assoc, List.singleton_append]
      · rw [List.nodup_cons]
        exact ⟨fun hmem => by simpa using (ih3 e.id hmem), ih2⟩
      · intro x hx
        rcases List.mem_cons.mp hx with rfl | hx'
        · exact hm
        · intro hxs
          exact (ih3 x hx') (by simp [hxs])

/-- Every yielded update comes from some feed entry with category
`"outdated"` whose title parsed; the update's fields are the captured
groups, the entry link and the poller's repository. -/
theorem updates_provenance (repo : String) (fr : Bool) :
    ∀ (entries : List FeedEntry) (seen : List String)
      (u : Update), u ∈ (processEntries repo fr entries seen).updates →
      ∃ e, e ∈ entries ∧ e.category = "outdated" ∧
        title_re_match e.title = some (u.package, u.old_version, u.new_version) ∧
        u.repository = repo ∧ u.details_url = e.link := by
  intro entries
  induction entries with
  | nil => intro seen u hu; simp [processEntries_nil] at hu
  | cons e es ih =>
    intro seen u hu
    by_cases hm : e.id ∈ seen
    · rw [processEntries_cons_mem repo fr e es seen hm] at hu
      obtain ⟨e', he', hrest⟩ := ih seen u hu
      exact ⟨e', by simp [he'], hrest⟩
    · rw [processEntries_cons_new repo fr e es seen hm] at hu
      dsimp only at hu
      rw [List.mem_append] at hu
      rcases hu with hu | hu
      · rcases hfr : fr with _ | _
        · rw [hfr] at hu
          rw [if_neg (by simp)] at hu
          by_cases hcat : e.category = "outdated"
          · rw [if_pos hcat] at hu
            unfold entryUpdate at hu
            rcases hparse : title_re_match e.title with _ | ⟨pkg, oldv, newv⟩ <;>
              rw [hparse] at hu
            · simp at hu
            · have : u = ⟨repo, pkg, oldv, newv, e.link⟩ := by simpa using hu
              subst this
              exact ⟨e, by simp, hcat, by simpa using hparse, rfl, rfl⟩
          · rw [if_neg hcat] at hu
            simp at hu
        · rw [hfr] at hu
          rw [if_pos rfl] at hu
          simp at hu
      · obtain ⟨e', he', hrest⟩ := ih (dequeAppend 500 seen e.id) u hu
        exact ⟨e', by simp [he'], hrest⟩

/-- If no feed entry has category `"outdated"`, no update is emitted. -/
theorem updates_nil_of_no_outdated (repo : String) (fr : Bool)
    (entries : List FeedEntry) (seen : List String)
    (h : ∀ e ∈ entries, e.category ≠ "outdated") :
    (processEntries repo fr entries seen).updates = [] := by
  rcases hres : (processEntries repo fr entries seen).updates with _ | ⟨u, us⟩
  · rfl
  · exfalso
    have hu : u ∈ (processEntries repo fr entries seen).updates := by
      rw [hres]; simp
    obtain ⟨e, he, hcat, _⟩ := updates_provenance repo fr entries seen u hu
    exact h e he hcat

/-- Every element of the deque after a cycle was there before the cycle or
was recorded during it: the cycle cannot invent ids. -/
theorem seen_ids_subset (repo : String) (fr : Bool) :
    ∀ (entries : List FeedEntry) (seen : List String) (x : String),
      x ∈ (processEntries repo fr entries seen).seen_ids →
      x ∈ seen ∨ x ∈ (processEntries repo fr entries seen).recorded := by
  intro entries
  induction entries with
  | nil => intro seen x hx; exact Or.inl (by simpa [processEntries_nil] using hx)
  | cons e es ih =>
    intro seen x hx
    by_cases hm : e.id ∈ seen
    · rw [processEntries_cons_mem repo fr e es seen hm] at hx ⊢
      exact ih seen x hx
    · rw [processEntries_cons_new repo fr e es seen hm] at hx ⊢
      dsimp only at hx ⊢
      rcases ih (dequeAppend 500 seen e.id) x hx with hmem | hrec
      · rcases mem_dequeAppend 500 seen e.id x hmem with h1 | h1
        · exact Or.inl h1
        · exact Or.inr (by simp [h1])
      · exact Or.inr (by simp [hrec])

/-- The deque never acquires duplicates during a cycle. -/
theorem seen_ids_nodup (repo : String) (fr : Bool) :
    ∀ (entries : List FeedEntry) (seen : List String), seen.Nodup →
      (processEntries repo fr entries seen).seen_ids.Nodup := by
  intro entries
  induction entries with
  | nil => intro seen h; simpa [processEntries_nil]
  | cons e es ih =>
    intro seen h
    by_cases hm : e.id ∈ seen
    · rw [processEntries_cons_mem repo fr e es seen hm]
      exact ih seen h
    · rw [processEntries_cons_new repo fr e es seen hm]
      dsimp only
      exact ih (dequeAppend 500 seen e.id) (dequeAppend_nodup 500 seen e.id h hm)

/-- The deque never grows beyond 500 ids during a cycle. -/
theorem seen_ids_length_le (repo : String) (fr : Bool) :
    ∀ (entries : List FeedEntry) (seen : List String), seen.length ≤ 500 →
      (processEntries repo fr entries seen).seen_ids.length ≤ 500 := by
  intro entries
  induction entries with
  | nil => intro seen h; simpa [processEntries_nil]
  | cons e es ih =>
    intro seen h
    by_cases hm : e.id ∈ seen
    · rw [processEntries_cons_mem repo fr e es seen hm]
      exact ih seen h
    · rw [processEntries_cons_new repo fr e es seen hm]
      dsimp only
      exact ih (dequeAppend 500 seen e.id) (dequeAppend_length_le 500 seen e.id h)

/-- Each yielded update is paired with a recorded id: a cycle cannot yield
more updates than it records ids. -/
theorem updates_length_le_recorded (repo : String) (fr : Bool) :
    ∀ (entries : List FeedEntry) (seen : List String),
      (processEntries repo fr entries seen).updates.length
        ≤ (processEntries repo fr entries seen).recorded.length := by
  intro entries
  induction entries with
  | nil => intro seen; simp [processEntries_nil]
  | cons e es ih =>
    intro seen
    by_cases hm : e.id ∈ seen
    · rw [processEntries_cons_mem repo fr e es seen hm]
      exact ih seen
    · rw [processEntries_cons_new repo fr e es seen hm]
      dsimp only
      have hupd : (if fr then []
          else if e.category = "outdated" then entryUpdate repo e else []).length ≤ 1 := by
        rcases fr with _ | _
        · by_cases hcat : e.category = "outdated"
          · simp only [Bool.false_eq_true, if_false, if_pos hcat]
            unfold entryUpdate
            rcases title_re_match e.title with _ | ⟨pkg, oldv, newv⟩ <;> simp
          · simp [hcat]
        · simp
      have := ih (dequeAppend 500 seen e.id)
      simp only [List.length_append, List.length_cons]
      omega

/-- Processing a concatenated feed is processing the first part, then the
second from the deque the first part left behind. -/
theorem processEntries_append (repo : String) (fr : Bool) :
    ∀ (l₁ l₂ : List FeedEntry) (seen : List String),
      processEntries repo fr (l₁ ++ l₂) seen =
        ⟨(processEntries repo fr l₂ (processEntries repo fr l₁ seen).seen_ids).seen_ids,
          (processEntries repo fr l₁ seen).recorded ++
            (processEntries repo fr l₂ (processEntries repo fr l₁ seen).seen_ids).recorded,
          (processEntries repo fr l₁ seen).updates ++
            (processEntries repo fr l₂ (processEntries repo fr l₁ seen).seen_ids).updates⟩ := by
  intro l₁
  induction l₁ with
  | nil =>
    intro l₂ seen
    simp [processEntries_nil]
  | cons e es ih =>
    intro l₂ seen
    by_cases hm : e.id ∈ seen
    · rw [List.cons_append, processEntries_cons_mem repo fr e (es ++ l₂) seen hm,
        processEntries_cons_mem repo fr e es seen hm]
      exact ih l₂ seen
    · rw [List.cons_append, processEntries_cons_new repo fr e (es ++ l₂) seen hm,
        processEntries_cons_new repo fr e es seen hm]
      dsimp only
      rw [ih l₂ (dequeAppend 500 seen e.id)]
      simp

/-- A feed of entries whose ids are distinct and all new records exactly
the id sequence, and the deque evolves by plain folding of appends. -/
theorem processEntries_fresh (repo : String) (fr : Bool) :
    ∀ (entries : List FeedEntry) (seen : List String),
      (entries.map FeedEntry.id).Nodup →
      (∀ e ∈ entries, e.id ∉ seen) →
      (processEntries repo fr entries seen).recorded = entries.map FeedEntry.id ∧
        (processEntries repo fr entries seen).seen_ids
          = List.foldl (dequeAppend 500) seen (entries.map FeedEntry.id) := by
  intro entries
  induction entries with
  | nil => intro seen _ _; simp [processEntries_nil]
  | cons e es ih =>
    intro seen hnd hfresh
    have hm : e.id ∉ seen := hfresh e (by simp)
    rw [processEntries_cons_new repo fr e es seen hm]
    dsimp only
    simp only [List.map_cons, List.nodup_cons] at hnd
    obtain ⟨hhead, htail⟩ := hnd
    have hfresh' : ∀ e' ∈ es, e'.id ∉ dequeAppend 500 seen e.id := by
      intro e' he' hmem
      rcases mem_dequeAppend 500 seen e.id e'.id hmem with h1 | h1
      · exact hfresh e' (by simp [he']) h1
      · exact hhead (h1 ▸ List.mem_map_of_mem FeedEntry.id he')
    obtain ⟨ih1, ih2⟩ := ih (dequeAppend 500 seen e.id) htail hfresh'
    refine ⟨by simp [ih1], ?_⟩
    rw [List.map_cons, List.foldl_cons]
    exact ih2

/-! ### Concrete id family used for witnesses and counterexamples -/

/-- The id `"a"`, `"aa"`, `"aaa"`, ...: `k + 1` copies of `'a'`. -/
def aId (k : Nat) : String := ⟨List.replicate (k + 1) 'a'⟩

theorem aId_injective : Function.Injective aId := by
  intro m k h
  have hd : List.replicate (m + 1) 'a' = List.replicate (k + 1) 'a' :=
    congrArg String.data h
  have hl := congrArg List.length hd
  simp only [List.length_replicate] at hl
  omega

theorem aId_ne_single (c : Char) (hc : c ≠ 'a') (k : Nat) : aId k ≠ ⟨[c]⟩ := by
  intro h
  have hd : List.replicate (k + 1) 'a' = [c] := congrArg String.data h
  have hl := congrArg List.length hd
  simp only [List.length_replicate, List.length_cons, List.length_nil] at hl
  have hk : k = 0 := by omega
  subst hk
  simp only [List.replicate, List.cons.injEq] at hd
  exact hc hd.1.symm

/-! ### Claim theorems -/

/-- C1: against an empty Dedup Window the cycle emits zero updates —
whatever the entries' categories and titles are — while every entry id is
still recorded in the window during the cycle. -/
theorem first_run_suppression (repo : String) (entries : List FeedEntry) :
    (check_for_updates repo entries []).updates = [] ∧
      ∀ e ∈ entries, e.id ∈ (check_for_updates repo entries []).recorded := by
  constructor
  · exact processEntries_first_run repo entries []
  · intro e he
    rcases mem_recorded_of_mem repo (([] : List String).length == 0) entries [] e he with
      h | h
    · cases h
    · exact h

/-- Witness for C1 at a concrete one-entry feed. -/
theorem first_run_suppression_witness :
    (check_for_updates "r" [⟨"i", "outdated", "t", "L"⟩] []).updates = [] ∧
      "i" ∈ (check_for_updates "r" [⟨"i", "outdated", "t", "L"⟩] []).recorded :=
  ⟨(first_run_suppression "r" [⟨"i", "outdated", "t", "L"⟩]).1,
    (first_run_suppression "r" [⟨"i", "outdated", "t", "L"⟩]).2
      ⟨"i", "outdated", "t", "L"⟩ (by simp)⟩

/-- C4: what gets recorded depends only on the entry ids (never on
categories, titles, the first-run flag or the repository), and every entry
of the feed ends the cycle with its id in the initial window or in the
recorded trace. -/
theorem recording_unconditional :
    (∀ (repo repo' : String) (fr fr' : Bool) (entries entries' : List FeedEntry)
        (seen : List String),
      entries.map FeedEntry.id = entries'.map FeedEntry.id →
      (processEntries repo fr entries seen).seen_ids
          = (processEntries repo' fr' entries' seen).seen_ids ∧
        (processEntries repo fr entries seen).recorded
          = (processEntries repo' fr' entries' seen).recorded) ∧
    ∀ (repo : String) (fr : Bool) (entries : List FeedEntry) (seen : List String),
      ∀ e ∈ entries, e.id ∈ seen ++ (processEntries repo fr entries seen).recorded := by
  constructor
  · exact fun repo repo' fr fr' entries entries' seen h =>
      recorded_ids_only repo repo' fr fr' entries entries' seen h
  · intro repo fr entries seen e he
    rw [List.mem_append]
    exact mem_recorded_of_mem repo fr entries seen e he

/-- Witness for C4: same id, different category/title/flag — same recording;
and the concrete entry is recorded. -/
theorem recording_unconditional_witness :
    ((processEntries "r" true [⟨"i", "outdated", "t", "L"⟩] ["z"]).seen_ids
        = (processEntries "x" false [⟨"i", "resolved", "u", "M"⟩] ["z"]).seen_ids ∧
      (processEntries "r" true [⟨"i", "outdated", "t", "L"⟩] ["z"]).recorded
        = (processEntries "x" false [⟨"i", "resolved", "u", "M"⟩] ["z"]).recorded) ∧
      "i" ∈ ["z"] ++ (processEntries "r" true [⟨"i", "outdated", "t", "L"⟩] ["z"]).recorded :=
  ⟨recording_unconditional.1 "r" "x" true false
      [⟨"i", "outdated", "t", "L"⟩] [⟨"i", "resolved", "u", "M"⟩] ["z"] (by decide),
    recording_unconditional.2 "r" true [⟨"i", "outdated", "t", "L"⟩] ["z"]
      ⟨"i", "outdated", "t", "L"⟩ (by simp)⟩

/-- C5: the backoff sequence for failures 1..5 is 60, 120, 240, 480, 960
seconds; the delay never exceeds the 3600-second cap; a failure increments
the counter and sleeps `min(30 * 2 ^ counter, 3600)`; a success resets the
counter to zero, so the failure after a success sleeps 60 seconds again. -/
theorem backoff_policy :
    exponential_backoff 30 1 = 60 ∧ exponential_backoff 30 2 = 120 ∧
      exponential_backoff 30 3 = 240 ∧ exponential_backoff 30 4 = 480 ∧
      exponential_backoff 30 5 = 960 ∧
      (∀ attempt : Nat, exponential_backoff 30 attempt ≤ 3600) ∧
      (∀ (repo : String) (interval : Nat) (entries : List FeedEntry) (st : LoopState),
        (loopStep repo interval entries .success st).state.retry_attempt = 0 ∧
          (loopStep repo interval entries .success st).sleep_seconds = interval) ∧
      (∀ (repo : String) (interval : Nat) (entries : List FeedEntry) (k : Nat)
          (st : LoopState),
        (loopStep repo interval entries (.failAfter k) st).state.retry_attempt
            = st.retry_attempt + 1 ∧
          (loopStep repo interval entries (.failAfter k) st).sleep_seconds
            = exponential_backoff 30 (st.retry_attempt + 1)) ∧
      ∀ (repo : String) (interval : Nat) (entries entries' : List FeedEntry) (k : Nat)
        (st : LoopState),
        (loopStep repo interval entries' (.failAfter k)
            (loopStep repo interval entries .success st).state).sleep_seconds = 60 := by
  refine ⟨by decide, by decide, by decide, by decide, by decide, ?_, ?_, ?_, ?_⟩
  · intro attempt
    exact min_le_right _ _
  · intro repo interval entries st
    exact ⟨rfl, rfl⟩
  · intro repo interval entries k st
    exact ⟨rfl, rfl⟩
  · intro repo interval entries entries' k st
    rfl

/-- C7: every yielded update is witnessed by a feed entry with category
exactly `"outdated"` (and a parsed title); in particular a feed with no
`"outdated"` entry yields nothing, in any cycle. -/
theorem category_filter :
    (∀ (repo : String) (fr : Bool) (entries : List FeedEntry) (seen : List String)
        (u : Update), u ∈ (processEntries repo fr entries seen).updates →
      ∃ e, e ∈ entries ∧ e.category = "outdated" ∧
        title_re_match e.title = some (u.package, u.old_version, u.new_version) ∧
        u.repository = repo ∧ u.details_url = e.link) ∧
    ∀ (repo : String) (fr : Bool) (entries : List FeedEntry) (seen : List String),
      (∀ e ∈ entries, e.category ≠ "outdated") →
      (processEntries repo fr entries seen).updates = [] := by
  constructor
  · exact fun repo fr entries seen u hu =>
      updates_provenance repo fr entries seen u hu
  · exact fun repo fr entries seen h =>
      updates_nil_of_no_outdated repo fr entries seen h

/-- Witness for C7 at a concrete update and a concrete non-outdated feed. -/
theorem category_filter_witness :
    (∃ e, e ∈ [(⟨"i", "outdated", "p 1 is outdated by 2", "L"⟩ : FeedEntry)] ∧
        e.category = "outdated" ∧
        title_re_match e.title
          = some ((⟨"r", "p", "1", "2", "L"⟩ : Update).package,
              (⟨"r", "p", "1", "2", "L"⟩ : Update).old_version,
              (⟨"r", "p", "1", "2", "L"⟩ : Update).new_version) ∧
        (⟨"r", "p", "1", "2", "L"⟩ : Update).repository = "r" ∧
        (⟨"r", "p", "1", "2", "L"⟩ : Update).details_url = e.link) ∧
      (processEntries "r" false [⟨"i", "resolved", "t", "L"⟩] ["z"]).updates = [] :=
  ⟨category_filter.1 "r" false [⟨"i", "outdated", "p 1 is outdated by 2", "L"⟩] ["z"]
      ⟨"r", "p", "1", "2", "L"⟩ (by decide),
    category_filter.2 "r" false [⟨"i", "resolved", "t", "L"⟩] ["z"] (by decide)⟩

/-- C3: the Dedup Window never holds more than 500 ids; recording more than
500 distinct ids into a fresh window evicts exactly the oldest surplus, so
the oldest ids test negative while the 500 most recent remain present. -/
theorem window_bound :
    (∀ (repo : String) (fr : Bool) (entries : List FeedEntry) (seen : List String),
      seen.length ≤ 500 →
      (processEntries repo fr entries seen).seen_ids.length ≤ 500) ∧
    ∀ ids : List String, ids.Nodup → 500 < ids.length →
      (List.foldl (dequeAppend 500) [] ids).length = 500 ∧
        (∀ x ∈ ids.take (ids.length - 500), x ∉ List.foldl (dequeAppend 500) [] ids) ∧
        ∀ x ∈ ids.drop (ids.length - 500), x ∈ List.foldl (dequeAppend 500) [] ids := by
  constructor
  · exact fun repo fr entries seen h => seen_ids_length_le repo fr entries seen h
  · intro ids hnd hlen
    have hfold : List.foldl (dequeAppend 500) [] ids = ids.drop (ids.length - 500) := by
      rw [foldl_dequeAppend 500 ids [] (by simp)]
      simp
    have hsplit := List.take_append_drop (ids.length - 500) ids
    have hnd' : (ids.take (ids.length - 500) ++ ids.drop (ids.length - 500)).Nodup := by
      rw [hsplit]; exact hnd
    have hdisj := (List.nodup_append.mp hnd').2.2
    refine ⟨?_, ?_, ?_⟩
    · rw [hfold, List.length_drop]
      omega
    · intro x hx
      rw [hfold]
      exact fun hx' => hdisj hx hx'
    · intro x hx
      rw [hfold]
      exact hx

/-- Witness for C3: a fresh window filled with 501 distinct ids. -/
theorem window_bound_witness :
    (processEntries "r" true [⟨"i", "outdated", "t", "L"⟩] ["z"]).seen_ids.length ≤ 500 ∧
      ∀ x ∈ ((List.range 501).map aId).take (((List.range 501).map aId).length - 500),
        x ∉ List.foldl (dequeAppend 500) [] ((List.range 501).map aId) :=
  ⟨window_bound.1 "r" true [⟨"i", "outdated", "t", "L"⟩] ["z"] (by decide),
    (window_bound.2 ((List.range 501).map aId)
      ((List.nodup_range 501).map aId_injective) (by simp)).2.1⟩

/-- C8: when a cycle fails after `k` entries, the loop keeps the window
exactly as the aborted cycle left it (the ids recorded before the failure
are a prefix of what a full cycle would have recorded, and the window holds
only prior ids and recorded ids — no corruption, no rollback), increments
the failure counter, and schedules a bounded backoff sleep instead of
terminating. -/
theorem cycle_failure_preserves_window :
    ∀ (repo : String) (interval : Nat) (entries : List FeedEntry) (k : Nat)
      (st : LoopState),
      (loopStep repo interval entries (.failAfter k) st).state.seen_ids
          = (check_for_updates repo (entries.take k) st.seen_ids).seen_ids ∧
        (∃ rest, (check_for_updates repo entries st.seen_ids).recorded
          = (check_for_updates repo (entries.take k) st.seen_ids).recorded ++ rest) ∧
        (∀ x ∈ (check_for_updates repo (entries.take k) st.seen_ids).seen_ids,
          x ∈ st.seen_ids ∨
            x ∈ (check_for_updates repo (entries.take k) st.seen_ids).recorded) ∧
        (loopStep repo interval entries (.failAfter k) st).state.retry_attempt
          = st.retry_attempt + 1 ∧
        (loopStep repo interval entries (.failAfter k) st).sleep_seconds ≤ 3600 := by
  intro repo interval entries k st
  refine ⟨rfl, ?_, ?_, rfl, ?_⟩
  · refine ⟨(processEntries repo (st.seen_ids.length == 0) (entries.drop k)
      (processEntries repo (st.seen_ids.length == 0)
        (entries.take k) st.seen_ids).seen_ids).recorded, ?_⟩
    unfold check_for_updates
    conv_lhs => rw [← List.take_append_drop k entries]
    rw [processEntries_append]
  · intro x hx
    exact seen_ids_subset repo _ (entries.take k) st.seen_ids x hx
  · exact min_le_right _ _

/-- Witness for C8 at a concrete failing cycle. -/
theorem cycle_failure_preserves_window_witness :
    (loopStep "r" 300 [⟨"i", "outdated", "t", "L"⟩] (.failAfter 1)
        ⟨["z"], 0⟩).state.seen_ids
        = (check_for_updates "r" ([⟨"i", "outdated", "t", "L"⟩].take 1) ["z"]).seen_ids ∧
      ("z" ∈ (["z"] : List String) ∨
        "z" ∈ (check_for_updates "r" ([⟨"i", "outdated", "t", "L"⟩].take 1) ["z"]).recorded) ∧
      (loopStep "r" 300 [⟨"i", "outdated", "t", "L"⟩] (.failAfter 1)
        ⟨["z"], 0⟩).state.retry_attempt = 0 + 1 :=
  ⟨(cycle_failure_preserves_window "r" 300 [⟨"i", "outdated", "t", "L"⟩] 1 ⟨["z"], 0⟩).1,
    (cycle_failure_preserves_window "r" 300 [⟨"i", "outdated", "t", "L"⟩] 1
      ⟨["z"], 0⟩).2.2.1 "z" (by decide),
    (cycle_failure_preserves_window "r" 300 [⟨"i", "outdated", "t", "L"⟩] 1
      ⟨["z"], 0⟩).2.2.2.1⟩

/-! ### C2: dedup idempotence -/

/-- A 501-entry feed: one parseable `"outdated"` entry followed by 500
filler entries with distinct ids.  On the first poll (fresh window) the
501st append evicts the id `"x"`; the second poll therefore re-emits it. -/
def c2Feed : List FeedEntry :=
  ⟨"x", "outdated", "pkg 1.0 is outdated by 2.0", "url"⟩ ::
    (List.range 500).map (fun k => ⟨aId k, "", "", ""⟩)

theorem c2Feed_ids : c2Feed.map FeedEntry.id = "x" :: (List.range 500).map aId := by
  simp [c2Feed, List.map_map, Function.comp]

theorem aId_map_ne_x : ∀ s ∈ (List.range 500).map aId, s ≠ "x" := by
  intro s hs
  obtain ⟨k, _, hk⟩ := List.mem_map.mp hs
  exact hk ▸ aId_ne_single 'x' (by decide) k

/-- Counterexample to C2 as stated: with the 501-distinct-id feed `c2Feed`,
polling twice in a row from a fresh window emits an update on the second
poll (the first poll evicted `"x"` from the window). -/
theorem dedup_idempotence_cex :
    (check_for_updates "repo" c2Feed
        (check_for_updates "repo" c2Feed []).seen_ids).updates ≠ [] := by
  have hnd : (c2Feed.map FeedEntry.id).Nodup := by
    rw [c2Feed_ids, List.nodup_cons]
    exact ⟨fun hx => aId_map_ne_x "x" hx rfl,
      (List.nodup_range 500).map aId_injective⟩
  have hwin : (check_for_updates "repo" c2Feed []).seen_ids
      = (List.range 500).map aId := by
    obtain ⟨_, hw⟩ := processEntries_fresh "repo" ((([] : List String)).length == 0)
      c2Feed [] hnd (by simp)
    show (processEntries "repo" ((([] : List String)).length == 0) c2Feed []).seen_ids = _
    rw [hw, c2Feed_ids, foldl_dequeAppend 500 _ [] (by simp)]
    simp
  rw [hwin]
  show (processEntries "repo" (((List.range 500).map aId).length == 0) c2Feed
      ((List.range 500).map aId)).updates ≠ []
  have hfr : (((List.range 500).map aId).length == 0) = false := by simp
  rw [hfr]
  have hxmem : (⟨"x", "outdated", "pkg 1.0 is outdated by 2.0", "url"⟩ : FeedEntry).id
      ∉ (List.range 500).map aId := fun h => aId_map_ne_x _ h rfl
  rw [show c2Feed = (⟨"x", "outdated", "pkg 1.0 is outdated by 2.0", "url"⟩ : FeedEntry) ::
      (List.range 500).map (fun k => ⟨aId k, "", "", ""⟩) from rfl]
  rw [processEntries_cons_new "repo" false _ _ _ hxmem]
  dsimp only
  rw [if_neg (by simp)]
  rw [if_pos rfl]
  rw [show entryUpdate "repo" (⟨"x", "outdated", "pkg 1.0 is outdated by 2.0", "url"⟩ : FeedEntry)
      = [⟨"repo", "pkg", "1.0", "2.0", "url"⟩] from rfl]
  simp

/-- C2 as amended: polling twice in succession with the same feed emits
zero updates (and records nothing) on the second poll, provided the
initial window size plus the feed length is at most the window bound 500
— in particular for a fresh poller and any feed of at most 500 entries. -/
theorem dedup_idempotence_bounded :
    ∀ (repo : String) (entries : List FeedEntry) (seen : List String),
      seen.length + entries.length ≤ 500 →
      (check_for_updates repo entries
          (check_for_updates repo entries seen).seen_ids).updates = [] ∧
        (check_for_updates repo entries
          (check_for_updates repo entries seen).seen_ids).recorded = [] := by
  intro repo entries seen hlen
  have h1 := processEntries_no_evict repo (seen.length == 0) entries seen hlen
  have hall : ∀ e ∈ entries, e.id ∈ (check_for_updates repo entries seen).seen_ids := by
    intro e he
    show e.id ∈ (processEntries repo (seen.length == 0) entries seen).seen_ids
    rw [h1.1, List.mem_append]
    exact mem_recorded_of_mem repo (seen.length == 0) entries seen e he
  have h2 : check_for_updates repo entries (check_for_updates repo entries seen).seen_ids
      = ⟨(check_for_updates repo entries seen).seen_ids, [], []⟩ :=
    processEntries_all_seen repo
      ((check_for_updates repo entries seen).seen_ids.length == 0) entries
      (check_for_updates repo entries seen).seen_ids hall
  rw [h2]
  exact ⟨rfl, rfl⟩

/-- Witness for the amended C2 at a concrete two-entry feed. -/
theorem dedup_idempotence_bounded_witness :
    (check_for_updates "r" [⟨"i", "outdated", "p 1 is outdated by 2", "L"⟩]
        (check_for_updates "r" [⟨"i", "outdated", "p 1 is outdated by 2", "L"⟩]
          ["z"]).seen_ids).updates = [] ∧
      (check_for_updates "r" [⟨"i", "outdated", "p 1 is outdated by 2", "L"⟩]
        (check_for_updates "r" [⟨"i", "outdated", "p 1 is outdated by 2", "L"⟩]
          ["z"]).seen_ids).recorded = [] :=
  dedup_idempotence_bounded "r" [⟨"i", "outdated", "p 1 is outdated by 2", "L"⟩]
    ["z"] (by decide)

/-! ### C10: within-cycle dedup -/

theorem aId_map_ne (c : Char) (hc : c ≠ 'a') (n : Nat) :
    ∀ s ∈ (List.range n).map aId, s ≠ ⟨[c]⟩ := by
  intro s hs
  obtain ⟨k, _, hk⟩ := List.mem_map.mp hs
  exact hk ▸ aId_ne_single c hc k

/-- The one entry that is re-notified within a single cycle. -/
def xEnt : FeedEntry := ⟨"x", "outdated", "pkg 1.0 is outdated by 2.0", "url"⟩

/-- A filler entry with a fresh id and a non-`"outdated"` category. -/
def aEntry (k : Nat) : FeedEntry := ⟨aId k, "", "", ""⟩

/-- 501 filler entries, enough to push `"x"` out of the window mid-cycle. -/
def c10Mid : List FeedEntry := (List.range 501).map aEntry

/-- The entry `"x"`, 501 fresh fillers, then `"x"` again — one feed. -/
def c10Feed : List FeedEntry := xEnt :: (c10Mid ++ [xEnt])

theorem c10Mid_ids : c10Mid.map FeedEntry.id = (List.range 501).map aId := by
  simp [c10Mid, aEntry, List.map_map, Function.comp]

/-- Counterexample to C10 as stated: in the single cycle over `c10Feed`
(from the non-empty window `["z"]`), the id `"x"` is appended twice — its
first append is evicted by the 501 fillers before its second occurrence is
reached — so the recorded trace has a duplicate and two updates are
emitted for the same id. -/
theorem single_cycle_dedup_cex :
    ¬ (check_for_updates "repo" c10Feed ["z"]).recorded.Nodup ∧
      (check_for_updates "repo" c10Feed ["z"]).updates.length = 2 := by
  have hfreshA : ∀ e ∈ c10Mid, e.id ∉ (["z", "x"] : List String) := by
    intro e he
    obtain ⟨k, _, hk⟩ := List.mem_map.mp he
    subst hk
    intro hmem
    simp only [aEntry, List.mem_cons, List.not_mem_nil, or_false] at hmem
    rcases hmem with h | h
    · exact aId_ne_single 'z' (by decide) k h
    · exact aId_ne_single 'x' (by decide) k h
  have hndA : (c10Mid.map FeedEntry.id).Nodup := by
    rw [c10Mid_ids]
    exact (List.nodup_range 501).map aId_injective
  obtain ⟨hrecA, hwinA⟩ :=
    processEntries_fresh "repo" false c10Mid ["z", "x"] hndA hfreshA
  rw [c10Mid_ids] at hrecA hwinA
  rw [foldl_dequeAppend 500 _ ["z", "x"] (by decide)] at hwinA
  have hwinA' : (processEntries "repo" false c10Mid ["z", "x"]).seen_ids
      = ((List.range 501).map aId).drop 1 := by
    rw [hwinA]
    simp
  have hxW : xEnt.id ∉ ((List.range 501).map aId).drop 1 := by
    intro h
    exact aId_map_ne 'x' (by decide) 501 "x" ((List.drop_sublist _ _).mem h) rfl
  have hlast := processEntries_cons_new "repo" false xEnt []
    (((List.range 501).map aId).drop 1) hxW
  rw [processEntries_nil] at hlast
  have hlastRec : (processEntries "repo" false [xEnt]
      (((List.range 501).map aId).drop 1)).recorded = ["x"] := by
    rw [hlast]
    rfl
  have hlastUpd : (processEntries "repo" false [xEnt]
      (((List.range 501).map aId).drop 1)).updates
      = [⟨"repo", "pkg", "1.0", "2.0", "url"⟩] := by
    rw [hlast]
    dsimp only
    rw [if_neg (by simp)]
    rw [if_pos (show xEnt.category = "outdated" from rfl)]
    rfl
  have hmidUpd : (processEntries "repo" false c10Mid ["z", "x"]).updates = [] := by
    refine updates_nil_of_no_outdated "repo" false c10Mid ["z", "x"] ?_
    intro e he
    obtain ⟨k, _, hk⟩ := List.mem_map.mp he
    subst hk
    simp [aEntry]
  have hstep : check_for_updates "repo" c10Feed ["z"]
      = processEntries "repo" false c10Feed ["z"] := rfl
  rw [hstep]
  have hx1 : xEnt.id ∉ (["z"] : List String) := by decide
  rw [show c10Feed = xEnt :: (c10Mid ++ [xEnt]) from rfl,
    processEntries_cons_new "repo" false xEnt (c10Mid ++ [xEnt]) ["z"] hx1]
  dsimp only
  rw [show dequeAppend 500 ["z"] xEnt.id = ["z", "x"] from rfl]
  rw [processEntries_append "repo" false c10Mid [xEnt] ["z", "x"]]
  dsimp only
  rw [hwinA', hrecA, hlastRec, hmidUpd, hlastUpd]
  constructor
  · intro hnodup
    rw [List.nodup_cons] at hnodup
    exact hnodup.1 (List.mem_append_right _ (List.mem_singleton.mpr rfl))
  · rw [if_neg (by simp), if_pos (show xEnt.category = "outdated" from rfl)]
    rfl

/-- C10 as amended: the window itself never contains duplicate ids; when
the initial window size plus the feed length fits in the bound 500, each
id is appended at most once per cycle; and a cycle never emits more
updates than it appends ids (one append per emission). -/
theorem single_cycle_dedup_amended :
    (∀ (repo : String) (fr : Bool) (entries : List FeedEntry) (seen : List String),
      seen.Nodup → (processEntries repo fr entries seen).seen_ids.Nodup) ∧
    (∀ (repo : String) (fr : Bool) (entries : List FeedEntry) (seen : List String),
      seen.length + entries.length ≤ 500 →
      (processEntries repo fr entries seen).recorded.Nodup) ∧
    ∀ (repo : String) (fr : Bool) (entries : List FeedEntry) (seen : List String),
      (processEntries repo fr entries seen).updates.length
        ≤ (processEntries repo fr entries seen).recorded.length := by
  refine ⟨?_, ?_, ?_⟩
  · exact fun repo fr entries seen h => seen_ids_nodup repo fr entries seen h
  · exact fun repo fr entries seen h =>
      (processEntries_no_evict repo fr entries seen h).2.1
  · exact fun repo fr entries seen =>
      updates_length_le_recorded repo fr entries seen

/-- Witness for the amended C10 at a concrete feed. -/
theorem single_cycle_dedup_amended_witness :
    (processEntries "r" false [⟨"i", "outdated", "t", "L"⟩] ["z"]).seen_ids.Nodup ∧
      (processEntries "r" false [⟨"i", "outdated", "t", "L"⟩] ["z"]).recorded.Nodup ∧
      (processEntries "r" false [⟨"i", "outdated", "t", "L"⟩] ["z"]).updates.length
        ≤ (processEntries "r" false [⟨"i", "outdated", "t", "L"⟩] ["z"]).recorded.length :=
  ⟨single_cycle_dedup_amended.1 "r" false [⟨"i", "outdated", "t", "L"⟩] ["z"] (by decide),
    single_cycle_dedup_amended.2.1 "r" false [⟨"i", "outdated", "t", "L"⟩] ["z"] (by decide),
    single_cycle_dedup_amended.2.2 "r" false [⟨"i", "outdated", "t", "L"⟩] ["z"]⟩

/-! ### C9: update field invariants -/

/-- Groups captured by `\S+` are nonempty strings. -/
theorem title_re_match_groups_ne (t pkg oldv newv : String)
    (h : title_re_match t = some (pkg, oldv, newv)) :
    pkg ≠ "" ∧ oldv ≠ "" ∧ newv ≠ "" := by
  have hc := (title_re_match_eq_some t pkg oldv newv).mp h
  obtain ⟨hp, ho, hn, _⟩ := (title_re_match_chars_eq_some _ _ _ _).mp hc
  refine ⟨fun he => hp ?_, fun he => ho ?_, fun he => hn ?_⟩ <;>
    rw [he]

/-- Counterexample to C9 as stated: with an empty configured repository and
a feed entry with an empty link (but a perfectly parseable title), the
constructed update has an empty `repository` and an empty `details_url`. -/
theorem update_fields_cex :
    ∃ u ∈ (check_for_updates ""
        [⟨"i", "outdated", "foo 1.0 is outdated by 2.0", ""⟩] ["z"]).updates,
      u.repository = "" ∧ u.details_url = "" := by decide

/-- C9 as amended: in every constructed update the three parsed fields
(`package`, `old_version`, `new_version`) are nonempty, while `repository`
is the poller's configured repository and `details_url` is the entry's
link, verbatim (nonempty only when those are). -/
theorem update_fields_amended :
    ∀ (repo : String) (fr : Bool) (entries : List FeedEntry) (seen : List String)
      (u : Update), u ∈ (processEntries repo fr entries seen).updates →
      u.package ≠ "" ∧ u.old_version ≠ "" ∧ u.new_version ≠ "" ∧
        u.repository = repo ∧ ∃ e, e ∈ entries ∧ u.details_url = e.link := by
  intro repo fr entries seen u hu
  obtain ⟨e, he, _, hparse, hrepo, hurl⟩ :=
    updates_provenance repo fr entries seen u hu
  obtain ⟨h1, h2, h3⟩ :=
    title_re_match_groups_ne e.title u.package u.old_version u.new_version hparse
  exact ⟨h1, h2, h3, hrepo, e, he, hurl⟩

/-- Witness for the amended C9 at a concrete update. -/
theorem update_fields_amended_witness :
    (⟨"r", "p", "1", "2", "L"⟩ : Update).package ≠ "" ∧
      (⟨"r", "p", "1", "2", "L"⟩ : Update).old_version ≠ "" ∧
      (⟨"r", "p", "1", "2", "L"⟩ : Update).new_version ≠ "" ∧
      (⟨"r", "p", "1", "2", "L"⟩ : Update).repository = "r" ∧
      ∃ e, e ∈ [(⟨"i", "outdated", "p 1 is outdated by 2", "L"⟩ : FeedEntry)] ∧
        (⟨"r", "p", "1", "2", "L"⟩ : Update).details_url = e.link :=
  update_fields_amended "r" false [⟨"i", "outdated", "p 1 is outdated by 2", "L"⟩]
    ["z"] ⟨"r", "p", "1", "2", "L"⟩ (by decide)

/-! ### C6: the parse contract -/

/-- Counterexample to C6 as stated: Python's `$` also matches just before a
single trailing newline, so the parser accepts
`"foo 1.0 is outdated by 2.0\n"`, a title that is not of the exact form
`"<package> <old_version> is outdated by <new_version>"` for any
whitespace-free tokens. -/
theorem parse_contract_cex :
    title_re_match "foo 1.0 is outdated by 2.0\n" = some ("foo", "1.0", "2.0") ∧
      ¬ ∃ pkg oldv newv : String,
        pkg.data ≠ [] ∧ oldv.data ≠ [] ∧ newv.data ≠ [] ∧
          (∀ c ∈ pkg.data, isPySpace c = false) ∧
          (∀ c ∈ oldv.data, isPySpace c = false) ∧
          (∀ c ∈ newv.data, isPySpace c = false) ∧
          ("foo 1.0 is outdated by 2.0\n" : String).data
            = pkg.data ++ [' '] ++ oldv.data ++ outdatedLiteral ++ newv.data := by
  refine ⟨by decide, ?_⟩
  rintro ⟨pkg, oldv, newv, hp, ho, hn, hpns, hons, hnns, hdec⟩
  have hm : title_re_match "foo 1.0 is outdated by 2.0\n" = some (pkg, oldv, newv) := by
    rw [title_re_match_eq_some]
    exact (title_re_match_chars_eq_some _ _ _ _).mpr
      ⟨hp, ho, hn, hpns, hons, hnns, Or.inl hdec⟩
  have h0 : title_re_match "foo 1.0 is outdated by 2.0\n"
      = some ("foo", "1.0", "2.0") := by decide
  rw [h0] at hm
  have hinj := Option.some.inj hm
  have h1 : ("foo" : String) = pkg := congrArg Prod.fst hinj
  have h2 : ("1.0" : String) = oldv := congrArg (fun x => x.2.1) hinj
  have h3 : ("2.0" : String) = newv := congrArg (fun x => x.2.2) hinj
  rw [← h1, ← h2, ← h3] at hdec
  exact absurd hdec (by decide)

/-- C6 as amended: the parser accepts exactly the titles
`"<package> <old_version> is outdated by <new_version>"` with nonempty
whitespace-free tokens, optionally followed by one trailing newline
(Python `$` semantics); the concrete examples of the claim hold, and a
parse failure yields no update while the cycle continues with the
remaining entries. -/
theorem parse_contract_amended :
    (∀ t pkg oldv newv : String,
      title_re_match t = some (pkg, oldv, newv) ↔
        (pkg.data ≠ [] ∧ oldv.data ≠ [] ∧ newv.data ≠ [] ∧
          (∀ c ∈ pkg.data, isPySpace c = false) ∧
          (∀ c ∈ oldv.data, isPySpace c = false) ∧
          (∀ c ∈ newv.data, isPySpace c = false) ∧
          (t.data = pkg.data ++ [' '] ++ oldv.data ++ outdatedLiteral ++ newv.data ∨
            t.data = pkg.data ++ [' '] ++ oldv.data ++ outdatedLiteral ++ newv.data
              ++ ['\n']))) ∧
      title_re_match "foo 1.0 is outdated by 2.0" = some ("foo", "1.0", "2.0") ∧
      title_re_match "foo is outdated" = none ∧
      (check_for_updates "r"
          [⟨"i1", "outdated", "foo is outdated", "u1"⟩,
            ⟨"i2", "outdated", "foo 1.0 is outdated by 2.0", "u2"⟩] ["z"]).updates
        = [⟨"r", "foo", "1.0", "2.0", "u2"⟩] := by
  refine ⟨?_, by decide, by decide, by decide⟩
  intro t pkg oldv newv
  rw [title_re_match_eq_some]
  exact title_re_match_chars_eq_some t.data pkg.data oldv.data newv.data

/-- Witness for the amended C6: the characterization applied in both
directions at concrete titles. -/
theorem parse_contract_amended_witness :
    title_re_match "a b is outdated by c\n" = some ("a", "b", "c") :=
  (parse_contract_amended.1 "a b is outdated by c\n" "a" "b" "c").mpr
    (by refine ⟨?_, ?_, ?_, ?_, ?_, ?_, Or.inr ?_⟩ <;> decide)
